import Mathlib

/-!
# Defect catalogue of `scripts-goat`

A shallow embedding of the two demonstration programs

* `scripts-goat/main.cpp` (entry point A): `copyUserInput`, `danglingPointer`,
  `leakMemory`, `main`;
* `scripts-goat/cpp/main1.cpp` (entry point B): `readFileToBuffer`,
  `uninitExample`, `doubleFree`, `main`.

The C and C++ runtime the programs call (`strcpy`, `fopen`, `fread`, `malloc`,
`free`, `new[]`, `delete`) is modelled as an explicit environment: byte regions
that keep a log of every store, a heap of live blocks, a stack of live slots and
a table of files.  An operation whose behaviour the language leaves undefined
is reported as a `Fault` event, and the run ends with it: the trace of a run
holds what the program is bound to do, and nothing is said of what it does
after an undefined operation, not even that it exits.
-/

namespace Goat

/-! ## Byte strings and regions -/

/-- Bytes of a C string as they lie in memory.  Reading stops at the first
zero byte; the end of the list stands for the terminator as well. -/
abbrev CStr := List Nat

/-- Number of bytes before the terminator, as `strlen` reports it. -/
def strlen : CStr → Nat
  | [] => 0
  | c :: cs => if c = 0 then 0 else strlen cs + 1

/-- Bytes before the terminator. -/
def content : CStr → List Nat
  | [] => []
  | c :: cs => if c = 0 then [] else c :: content cs

/-- Storage region of fixed capacity.  A cell is `none` until something is
stored in it.  Every store is logged with its offset, also one past the end,
which leaves the cells as they are. -/
structure Region where
  cells : List (Option Nat)
  log : List (Nat × Nat)
  deriving DecidableEq, Repr

namespace Region

/-- Region of `n` cells, none of them written yet. -/
def fresh (n : Nat) : Region := ⟨List.replicate n none, []⟩

/-- Number of cells. -/
def capacity (r : Region) : Nat := r.cells.length

/-- Store `b` at offset `i`, with no bound check. -/
def store (r : Region) (i b : Nat) : Region :=
  ⟨if i < r.cells.length then r.cells.set i (some b) else r.cells, r.log ++ [(i, b)]⟩

/-- Store the bytes `bs` at consecutive offsets from `i` on. -/
def storeFrom (r : Region) (i : Nat) : List Nat → Region
  | [] => r
  | b :: bs => storeFrom (r.store i b) (i + 1) bs

/-- Logged stores that fell outside the region. -/
def overruns (r : Region) : List (Nat × Nat) :=
  r.log.filter (fun w => decide (r.cells.length ≤ w.1))

end Region

/-- C string found at the start of a piece of memory: the bytes up to the
first zero byte; an unwritten cell ends the reading too. -/
def readCStr : List (Option Nat) → List Nat
  | [] => []
  | none :: _ => []
  | some c :: rest => if c = 0 then [] else c :: readCStr rest

/-- Loop of `strcpy`: copy bytes to offsets `i`, `i + 1`, ... up to and
including the terminator. -/
def strcpyAt (i : Nat) (dst : Region) : CStr → Region
  | [] => dst.store i 0
  | c :: cs => if c = 0 then dst.store i 0 else strcpyAt (i + 1) (dst.store i c) cs

/-- Model of `strcpy(dst, src)`. -/
def strcpy (dst : Region) (src : CStr) : Region := strcpyAt 0 dst src

/-- Model of `fread(dst, size, count, stream)`: at most `size * count` bytes
of the stream are stored from the start of `dst`, with no regard for the
capacity of `dst`; the number of whole items read is returned. -/
def fread (dst : Region) (size count : Nat) (stream : List Nat) : Nat × Region :=
  let bytes := stream.take (size * count)
  (bytes.length / size, dst.storeFrom 0 bytes)

/-! ## Heap -/

/-- How a heap block was obtained. -/
inductive AllocKind
  | malloc
  | newScalar
  | newArray
  deriving DecidableEq, Repr

/-- Which release operation is applied to a handle. -/
inductive ReleaseKind
  | free
  | delete
  | deleteArray
  deriving DecidableEq, Repr

/-- Element type of a block. -/
inductive Elem
  | char
  | int
  deriving DecidableEq, Repr

/-- Release operation that goes with each way of allocating. -/
def ReleaseKind.fits : ReleaseKind → AllocKind → Bool
  | .free, .malloc => true
  | .delete, .newScalar => true
  | .deleteArray, .newArray => true
  | _, _ => false

/-- Live heap block: its handle, how it was obtained, and one cell per
element. -/
structure Block where
  addr : Nat
  how : AllocKind
  elem : Elem
  mem : Region
  deriving DecidableEq, Repr

/-- Allocator state: the live blocks, oldest first, and the handles released
so far, latest first.  The allocator grants every request. -/
structure Heap where
  live : List Block
  released : List Nat
  deriving DecidableEq, Repr

/-- What an analyser is expected to report. -/
inductive Fault
  | storePastEnd (offset : Nat)
  | expiredRead (addr : Nat)
  | indeterminateBranch
  | mismatchedRelease (addr : Nat)
  | deadRelease (addr : Nat)
  | wildRelease (addr : Nat)
  deriving DecidableEq, Repr

namespace Heap

/-- Handles of the live blocks. -/
def handles (h : Heap) : List Nat := h.live.map Block.addr

/-- Handle the next allocation gets: one that is neither live nor was ever
released, so that a released handle keeps naming the block it was given for;
never 0, which stands for the null pointer. -/
def fresh (h : Heap) : Nat := (h.handles ++ h.released).foldr max 0 + 1

/-- Live block with handle `a`. -/
def find (h : Heap) (a : Nat) : Option Block := h.live.find? (fun b => decide (b.addr = a))

/-- Allocate a block of `n` unwritten elements. -/
def alloc (h : Heap) (how : AllocKind) (elem : Elem) (n : Nat) : Nat × Heap :=
  (h.fresh, ⟨h.live ++ [⟨h.fresh, how, elem, Region.fresh n⟩], h.released⟩)

/-- Cells of the live block `a`; a region without cells if `a` is not live. -/
def region (h : Heap) (a : Nat) : Region :=
  match h.find a with
  | some b => b.mem
  | none => Region.fresh 0

/-- Replace the cells of the live block `a`. -/
def setRegion (h : Heap) (a : Nat) (m : Region) : Heap :=
  ⟨h.live.map (fun b => if b.addr = a then ⟨b.addr, b.how, b.elem, m⟩ else b), h.released⟩

/-- Apply the release operation `k` to the handle `a`.  A live block is
released, with a fault if `k` does not fit how it was obtained.  A handle that
is not live is left alone and reported: as `deadRelease` if it was released
before, as `wildRelease` otherwise. -/
def release (h : Heap) (k : ReleaseKind) (a : Nat) : Heap × List Fault :=
  match h.find a with
  | some b =>
    (⟨h.live.filter (fun c => decide (c.addr ≠ a)), a :: h.released⟩,
      if k.fits b.how then [] else [Fault.mismatchedRelease a])
  | none => (h, [if a ∈ h.released then Fault.deadRelease a else Fault.wildRelease a])

end Heap

/-! ## Stack -/

/-- Live stack slots, innermost last; the address of a slot is its index. -/
abbrev Stack := List Int

/-- Read through a pointer to a stack slot.  A slot that is no longer live
holds nothing the program put there: the read is reported and yields whatever
value `stale` the environment left at that place. -/
def deref (s : Stack) (addr : Nat) (stale : Int) : Int × List Fault :=
  match s.get? addr with
  | some v => (v, [])
  | none => (stale, [Fault.expiredRead addr])

/-! ## Events -/

/-- Demonstration routines of the two programs. -/
inductive Routine
  | copyUserInput
  | danglingPointer
  | leakMemory
  | readFileToBuffer
  | uninitExample
  | doubleFree
  deriving DecidableEq, Repr

/-- Argument of a `printf` call. -/
inductive PrintArg
  | str (bytes : List Nat)
  | int (v : Int)
  deriving DecidableEq, Repr

/-- Observable step of a run. -/
inductive Event
  | call (r : Routine) (arg : Option CStr)
  | fopen (path : CStr) (mode : String) (ok : Bool)
  | alloc (how : AllocKind) (elem : Elem) (count : Nat) (addr : Nat)
  | fread (addr : Nat) (size count : Nat)
  | fclose
  | assign (addr : Nat) (v : Nat)
  | release (how : ReleaseKind) (addr : Nat)
  | printf (fmt : String) (arg : PrintArg)
  | fault (f : Fault)
  deriving DecidableEq, Repr

/-- Whether an event is a report rather than an operation of the program. -/
def Event.isFault : Event → Bool
  | .fault _ => true
  | _ => false

/-- Whether an event writes to the standard output. -/
def Event.isOutput : Event → Bool
  | .printf _ _ => true
  | _ => false

/-- Operations of a trace, the reports left out. -/
def ops (t : List Event) : List Event := t.filter (fun e => !e.isFault)

/-- Reports of a trace. -/
def faults : List Event → List Fault
  | [] => []
  | .fault f :: t => f :: faults t
  | _ :: t => faults t

/-- Reports for the stores of a region that fell outside it. -/
def overrunFaults (r : Region) : List Event :=
  r.overruns.map (fun w => Event.fault (Fault.storePastEnd w.1))

/-- Whether a stretch of a run holds no undefined operation. -/
def defined (t : List Event) : Bool := (faults t).isEmpty

/-- Sequencing: `next` follows `t` only if `t` holds no undefined operation;
otherwise the run is over with `t`. -/
def andThen (t next : List Event) : List Event :=
  if defined t then t ++ next else t

/-! ## Entry point A: `scripts-goat/main.cpp` -/

/-- State of the local `buf` of `copyUserInput` after the `strcpy`:
`char buf[64]` is 64 unwritten cells, and `input` is copied into it with no
bound. -/
def copyUserInputBuf (input : CStr) : Region :=
  strcpy (Region.fresh 64) input

/-- Routine `copyUserInput(input)`: the copy, then, if the copy stayed inside
the buffer, the buffer printed as a C string. -/
def copyUserInput (input : CStr) : List Event :=
  let buf := copyUserInputBuf input
  andThen (overrunFaults buf)
    [Event.printf "You entered: %s\n" (PrintArg.str (readCStr buf.cells))]

/-- Stages of a call of `danglingPointer`: the stack while the routine runs,
the address it returns, and the stack once it has returned. -/
structure DanglingRun where
  inside : Stack
  addr : Nat
  after : Stack
  deriving DecidableEq, Repr

/-- Call of `danglingPointer` on the stack `s`: the local is a new slot
holding 42, its address is returned, and the slot goes with the frame. -/
def danglingPointerRun (s : Stack) : DanglingRun :=
  let inside := s ++ [42]
  ⟨inside, inside.length - 1, inside.dropLast⟩

/-- Routine `danglingPointer()`: the returned address and the stack after
the return. -/
def danglingPointer (s : Stack) : Nat × Stack :=
  ((danglingPointerRun s).addr, (danglingPointerRun s).after)

/-- Routine `leakMemory()`: `new int[100]`, and nothing else.  Only the heap
comes back; the handle is in no result. -/
def leakMemory (h : Heap) : Heap × List Event :=
  let (data, h1) := h.alloc AllocKind.newArray Elem.int 100
  (h1, [Event.alloc AllocKind.newArray Elem.int 100 data])

/-- What a program starts from and cannot control: which paths open and with
what bytes, the value found in an integer that was never written, the value
found at an expired stack address, and the allocator and stack at entry. -/
structure World where
  files : CStr → Option (List Nat)
  indet : Int
  stale : Int
  heap : Heap
  stack : Stack

/-- Result of a run: the events the program is bound to produce, in order,
and its exit status; the status is `none` when the run ends in an undefined
operation, after which no exit is assured. -/
structure Outcome where
  status : Option Int
  trace : List Event
  deriving DecidableEq, Repr

/-- Function `main` of entry point A.  `argv` is the whole argument vector,
program name first, so `argc` is its length. -/
def EntryA.main (w : World) (argv : List CStr) : Outcome :=
  let t1 :=
    if argv.length > 1 then
      Event.call Routine.copyUserInput (some (argv.getD 1 [])) :: copyUserInput (argv.getD 1 [])
    else []
  if defined t1 then
    let ptr := danglingPointer w.stack
    let v := deref ptr.2 ptr.1 w.stale
    let t2 := t1 ++ Event.call Routine.danglingPointer none :: v.2.map Event.fault
    if defined t2 then
      let leak := leakMemory w.heap
      let t3 := t2 ++ Event.printf "Dangling value: %d\n" (PrintArg.int v.1) ::
        Event.call Routine.leakMemory none :: leak.2
      ⟨if defined t3 then some 0 else none, t3⟩
    else ⟨none, t2⟩
  else ⟨none, t1⟩

/-! ## Entry point B: `scripts-goat/cpp/main1.cpp` -/

/-- Routine `readFileToBuffer(path)`.  The `fclose` and the `delete` are
reached only if the `fread` stayed inside the block. -/
def readFileToBuffer (files : CStr → Option (List Nat)) (h : Heap) (path : CStr) :
    Heap × List Event :=
  match files path with
  | none => (h, [Event.fopen path "rb" false])
  | some data =>
    let (buf, h1) := h.alloc AllocKind.newArray Elem.char 256
    let (_n, mem) := fread (h1.region buf) 1 512 data
    let h2 := h1.setRegion buf mem
    let t := [Event.fopen path "rb" true, Event.alloc AllocKind.newArray Elem.char 256 buf,
      Event.fread buf 1 512] ++ overrunFaults mem
    if defined t then
      let (h3, fs) := h2.release ReleaseKind.delete buf
      (h3, t ++ [Event.fclose, Event.release ReleaseKind.delete buf] ++ fs.map Event.fault)
    else (h2, t)

/-- Routine `uninitExample()`, with `x` the value found in the integer that
was never written.  The routine does no arithmetic on `x`, so `int` is taken
as the unbounded integers. -/
def uninitExample (x : Int) : Int × List Event :=
  (if x > 0 then x else -1, [Event.fault Fault.indeterminateBranch])

/-- Stages of a call of `doubleFree`: the handle, and the heap after each of
the four statements. -/
structure DoubleFreeRun where
  p : Nat
  afterMalloc : Heap
  afterStore : Heap
  afterFree1 : Heap × List Fault
  afterFree2 : Heap × List Fault
  deriving DecidableEq, Repr

/-- Call of `doubleFree` on the heap `h`, statement by statement. -/
def doubleFreeRun (h : Heap) : DoubleFreeRun :=
  let (p, h1) := h.alloc AllocKind.malloc Elem.int 1
  let h2 := h1.setRegion p ((h1.region p).store 0 7)
  let r3 := h2.release ReleaseKind.free p
  let r4 := r3.1.release ReleaseKind.free p
  ⟨p, h1, h2, r3, r4⟩

/-- Routine `doubleFree()`. -/
def doubleFree (h : Heap) : Heap × List Event :=
  let run := doubleFreeRun h
  (run.afterFree2.1,
    [Event.alloc AllocKind.malloc Elem.int 1 run.p, Event.assign run.p 7,
     Event.release ReleaseKind.free run.p] ++ run.afterFree1.2.map Event.fault ++
    [Event.release ReleaseKind.free run.p] ++ run.afterFree2.2.map Event.fault)

/-- Function `main` of entry point B.  `argv` is the whole argument vector,
program name first, so `argc` is its length. -/
def EntryB.main (w : World) (argv : List CStr) : Outcome :=
  let r1 :=
    if argv.length > 1 then
      ((readFileToBuffer w.files w.heap (argv.getD 1 [])).1,
        Event.call Routine.readFileToBuffer (some (argv.getD 1 [])) ::
          (readFileToBuffer w.files w.heap (argv.getD 1 [])).2)
    else (w.heap, [])
  if defined r1.2 then
    let val := uninitExample w.indet
    let t2 := r1.2 ++ Event.call Routine.uninitExample none :: val.2
    if defined t2 then
      let r3 := doubleFree r1.1
      let t3 := t2 ++ Event.printf "Value: %d\n" (PrintArg.int val.1) ::
        Event.call Routine.doubleFree none :: r3.2
      ⟨if defined t3 then some 0 else none, t3⟩
    else ⟨none, t2⟩
  else ⟨none, r1.2⟩

/-! ## Sample inputs -/

/-- Heap with nothing allocated and nothing released. -/
def emptyHeap : Heap := ⟨[], []⟩

/-- World in which no path opens. -/
def bareWorld : World := ⟨fun _ => none, 5, 17, emptyHeap, []⟩

/-- File of 300 bytes. -/
def sampleFile : List Nat := List.replicate 300 65

/-- World in which every path opens `sampleFile`. -/
def fileWorld : World := ⟨fun _ => some sampleFile, -3, 42, emptyHeap, [1, 2]⟩

/-- File of 3 bytes. -/
def shortFile : List Nat := [65, 66, 67]

/-- World in which every path opens `shortFile`. -/
def shortWorld : World := ⟨fun _ => some shortFile, 0, 0, emptyHeap, []⟩

end Goat

namespace Goat

/-! ## Regions: what a run of stores leaves behind -/

theorem length_content (s : CStr) : (content s).length = strlen s := by
  induction s with
  | nil => rfl
  | cons c cs ih =>
    by_cases hc : c = 0
    · simp [content, strlen, hc]
    · simp [content, strlen, hc, ih]

theorem strcpyAt_eq_storeFrom (src : CStr) (i : Nat) (dst : Region) :
    strcpyAt i dst src = dst.storeFrom i (content src ++ [0]) := by
  induction src generalizing i dst with
  | nil => rfl
  | cons c cs ih =>
    by_cases hc : c = 0
    · simp [strcpyAt, content, hc, Region.storeFrom]
    · simp [strcpyAt, content, hc, Region.storeFrom, ih]

theorem storeFrom_log (bs : List Nat) (i : Nat) (r : Region) :
    (r.storeFrom i bs).log = r.log ++ bs.enumFrom i := by
  induction bs generalizing i r with
  | nil => simp [Region.storeFrom]
  | cons b bs ih => simp [Region.storeFrom, ih, Region.store, List.enumFrom]

theorem store_cells_length (r : Region) (i b : Nat) :
    (r.store i b).cells.length = r.cells.length := by
  unfold Region.store
  split <;> simp

theorem storeFrom_cells_length (bs : List Nat) (i : Nat) (r : Region) :
    (r.storeFrom i bs).cells.length = r.cells.length := by
  induction bs generalizing i r with
  | nil => rfl
  | cons b bs ih => simp [Region.storeFrom, ih, store_cells_length]

/-- Stores at or past the end leave the cells alone. -/
theorem storeFrom_cells_of_le (bs : List Nat) (i : Nat) (r : Region)
    (h : r.cells.length ≤ i) : (r.storeFrom i bs).cells = r.cells := by
  induction bs generalizing i r with
  | nil => rfl
  | cons b bs ih =>
    have hs : (r.store i b).cells = r.cells := by
      simp [Region.store, Nat.not_lt.mpr h]
    simp only [Region.storeFrom]
    rw [ih (i + 1) (r.store i b) (by rw [hs]; omega), hs]

/-- Cells after a run of stores into a region whose first cells are `pre` and
whose other `k` cells are unwritten. -/
theorem storeFrom_cells (bs : List Nat) (pre : List (Option Nat)) (k : Nat)
    (lg : List (Nat × Nat)) :
    (Region.storeFrom ⟨pre ++ List.replicate k none, lg⟩ pre.length bs).cells
      = pre ++ (bs.take k).map some ++ List.replicate (k - bs.length) none := by
  induction bs generalizing pre k lg with
  | nil => simp [Region.storeFrom]
  | cons b bs ih =>
    cases k with
    | zero =>
      rw [storeFrom_cells_of_le] <;> simp
    | succ k =>
      have hs : Region.store ⟨pre ++ List.replicate (k + 1) none, lg⟩ pre.length b
          = ⟨(pre ++ [some b]) ++ List.replicate k none, lg ++ [(pre.length, b)]⟩ := by
        simp [Region.store, List.replicate_succ]
      simp only [Region.storeFrom]
      rw [hs]
      have := ih (pre ++ [some b]) k (lg ++ [(pre.length, b)])
      simp only [List.length_append, List.length_singleton] at this
      rw [this]
      simp

theorem enumFrom_filter_snd (bs : List Nat) (i n : Nat) :
    ((bs.enumFrom i).filter (fun w => decide (n ≤ w.1))).map Prod.snd = bs.drop (n - i) := by
  induction bs generalizing i with
  | nil => simp
  | cons b bs ih =>
    by_cases h : n ≤ i
    · have h0 : n - i = 0 := by omega
      have h1 : n - (i + 1) = 0 := by omega
      have := ih (i + 1)
      rw [h1] at this
      simp [List.enumFrom, h, h0] at this ⊢
      exact this
    · have h1 : n - i = (n - (i + 1)) + 1 := by omega
      rw [h1]
      simp [List.enumFrom, h, ih (i + 1)]

theorem enumFrom_filter_of_le (bs : List Nat) (i n : Nat) (h : n ≤ i) :
    (bs.enumFrom i).filter (fun w => decide (n ≤ w.1)) = bs.enumFrom i := by
  induction bs generalizing i with
  | nil => rfl
  | cons b bs ih => simp [List.enumFrom, h, ih (i + 1) (by omega)]

theorem enumFrom_fst (bs : List Nat) (i : Nat) :
    (bs.enumFrom i).map Prod.fst = List.range' i bs.length := by
  induction bs generalizing i with
  | nil => rfl
  | cons b bs ih => simp [List.enumFrom, ih (i + 1), List.range'_succ]

theorem enumFrom_filter_fst (bs : List Nat) (i n : Nat) (h : i ≤ n) :
    ((bs.enumFrom i).filter (fun w => decide (n ≤ w.1))).map Prod.fst
      = List.range' n (i + bs.length - n) := by
  induction bs generalizing i with
  | nil => simp [show i - n = 0 by omega]
  | cons b bs ih =>
    by_cases hn : n = i
    · subst hn
      rw [enumFrom_filter_of_le _ _ _ (Nat.le_refl n), enumFrom_fst]
      congr 1
      omega
    · have hlt : ¬ n ≤ i := by omega
      have := ih (i + 1) (by omega)
      simp only [List.enumFrom, List.filter_cons, hlt, decide_False, List.length_cons]
      rw [if_neg (by simp), this]
      congr 1
      omega

/-- Cells of a region that was unwritten before a run of stores from its
start. -/
theorem fresh_storeFrom_cells (n : Nat) (bs : List Nat) :
    ((Region.fresh n).storeFrom 0 bs).cells
      = (bs.take n).map some ++ List.replicate (n - bs.length) none := by
  have := storeFrom_cells bs [] n []
  simpa [Region.fresh] using this

theorem fresh_storeFrom_overruns (n : Nat) (bs : List Nat) :
    ((Region.fresh n).storeFrom 0 bs).overruns
      = (bs.enumFrom 0).filter (fun w => decide (n ≤ w.1)) := by
  simp [Region.overruns, storeFrom_log, storeFrom_cells_length, Region.fresh]

/-- Bytes that a run of stores from the start of a region puts past its end. -/
theorem fresh_storeFrom_overruns_snd (n : Nat) (bs : List Nat) :
    ((Region.fresh n).storeFrom 0 bs).overruns.map Prod.snd = bs.drop n := by
  rw [fresh_storeFrom_overruns, enumFrom_filter_snd]
  rfl

/-- Offsets past the end that a run of stores from the start of a region
reaches. -/
theorem fresh_storeFrom_overruns_fst (n : Nat) (bs : List Nat) :
    ((Region.fresh n).storeFrom 0 bs).overruns.map Prod.fst
      = List.range' n (bs.length - n) := by
  rw [fresh_storeFrom_overruns, enumFrom_filter_fst _ _ _ (Nat.zero_le n)]
  simp

theorem fresh_storeFrom_overruns_length (n : Nat) (bs : List Nat) :
    ((Region.fresh n).storeFrom 0 bs).overruns.length = bs.length - n := by
  have := congrArg List.length (fresh_storeFrom_overruns_fst n bs)
  simpa using this

theorem readCStr_content (s : CStr) (rest : List (Option Nat)) :
    readCStr ((content s ++ [0]).map some ++ rest) = content s := by
  induction s with
  | nil => simp [content, readCStr]
  | cons c cs ih =>
    by_cases hc : c = 0
    · simp [content, readCStr, hc]
    · have := ih
      simp only [List.map_append, List.append_assoc] at this
      simpa [content, readCStr, hc] using this

theorem faults_append (s t : List Event) : faults (s ++ t) = faults s ++ faults t := by
  induction s with
  | nil => rfl
  | cons e s ih => cases e <;> simp [faults, ih]

theorem faults_map_fault (fs : List Fault) : faults (fs.map Event.fault) = fs := by
  induction fs with
  | nil => rfl
  | cons f fs ih => simp [faults, ih]

theorem faults_overrunFaults (r : Region) :
    faults (overrunFaults r) = (r.overruns.map Prod.fst).map Fault.storePastEnd := by
  unfold overrunFaults
  rw [← faults_map_fault ((r.overruns.map Prod.fst).map Fault.storePastEnd)]
  simp only [List.map_map]
  rfl

theorem ops_append (s t : List Event) : ops (s ++ t) = ops s ++ ops t := by
  simp [ops]

theorem ops_map_fault (fs : List Fault) : ops (fs.map Event.fault) = [] := by
  simp [ops, Event.isFault]

theorem ops_overrunFaults (r : Region) : ops (overrunFaults r) = [] := by
  have : overrunFaults r = ((r.overruns.map Prod.fst).map Fault.storePastEnd).map Event.fault := by
    simp only [overrunFaults, List.map_map]
    rfl
  rw [this, ops_map_fault]

theorem copyUserInputBuf_eq (input : CStr) :
    copyUserInputBuf input = (Region.fresh 64).storeFrom 0 (content input ++ [0]) := by
  simp [copyUserInputBuf, strcpy, strcpyAt_eq_storeFrom]

/-! ## Heap: a block at a handle no other live block has -/

theorem le_foldr_max (l : List Nat) (x : Nat) (hx : x ∈ l) : x ≤ l.foldr max 0 := by
  induction l with
  | nil => cases hx
  | cons y l ih =>
    rcases List.mem_cons.mp hx with rfl | h
    · exact Nat.le_max_left _ _
    · exact Nat.le_trans (ih h) (Nat.le_max_right _ _)

theorem fresh_not_live (h : Heap) : h.fresh ∉ h.handles := by
  intro hm
  have := le_foldr_max (h.handles ++ h.released) h.fresh (List.mem_append_left _ hm)
  unfold Heap.fresh at this
  omega

theorem fresh_not_released (h : Heap) : h.fresh ∉ h.released := by
  intro hm
  have := le_foldr_max (h.handles ++ h.released) h.fresh (List.mem_append_right _ hm)
  unfold Heap.fresh at this
  omega

theorem find_none_of_not_live (live : List Block) (rel : List Nat) (a : Nat)
    (ha : a ∉ live.map Block.addr) : Heap.find ⟨live, rel⟩ a = none := by
  simp only [Heap.find, List.find?_eq_none]
  intro b hb hba
  exact ha (List.mem_map.mpr ⟨b, hb, by simpa using hba⟩)

theorem find_last (live : List Block) (rel : List Nat) (b : Block)
    (ha : b.addr ∉ live.map Block.addr) : Heap.find ⟨live ++ [b], rel⟩ b.addr = some b := by
  have hn := find_none_of_not_live live rel b.addr ha
  simp only [Heap.find] at hn ⊢
  rw [List.find?_append, hn]
  simp

theorem region_last (live : List Block) (rel : List Nat) (b : Block)
    (ha : b.addr ∉ live.map Block.addr) : Heap.region ⟨live ++ [b], rel⟩ b.addr = b.mem := by
  simp [Heap.region, find_last live rel b ha]

theorem setRegion_last (live : List Block) (rel : List Nat) (b : Block) (m : Region)
    (ha : b.addr ∉ live.map Block.addr) :
    Heap.setRegion ⟨live ++ [b], rel⟩ b.addr m = ⟨live ++ [⟨b.addr, b.how, b.elem, m⟩], rel⟩ := by
  have hl : live.map (fun c => if c.addr = b.addr then ⟨c.addr, c.how, c.elem, m⟩ else c) = live := by
    conv_rhs => rw [← List.map_id live]
    apply List.map_congr_left
    intro c hc
    have : c.addr ≠ b.addr := fun e => ha (List.mem_map.mpr ⟨c, hc, e⟩)
    simp [this]
  simp [Heap.setRegion, hl]

theorem release_last (live : List Block) (rel : List Nat) (b : Block) (k : ReleaseKind)
    (ha : b.addr ∉ live.map Block.addr) :
    Heap.release ⟨live ++ [b], rel⟩ k b.addr
      = (⟨live, b.addr :: rel⟩, if k.fits b.how then [] else [Fault.mismatchedRelease b.addr]) := by
  have hl : live.filter (fun c => decide (c.addr ≠ b.addr)) = live := by
    apply List.filter_eq_self.mpr
    intro c hc
    have : c.addr ≠ b.addr := fun e => ha (List.mem_map.mpr ⟨c, hc, e⟩)
    simp [this]
  have hl2 : (live ++ [b]).filter (fun c => decide (c.addr ≠ b.addr)) = live := by
    rw [List.filter_append, hl]
    simp
  unfold Heap.release
  rw [find_last live rel b ha]
  simp only [hl2]

theorem release_dead (live : List Block) (rel : List Nat) (a : Nat) (k : ReleaseKind)
    (ha : a ∉ live.map Block.addr) :
    Heap.release ⟨live, a :: rel⟩ k a = (⟨live, a :: rel⟩, [Fault.deadRelease a]) := by
  simp [Heap.release, find_none_of_not_live live (a :: rel) a ha]

theorem sampleFile_length : sampleFile.length = 300 := by
  rw [sampleFile, List.length_replicate]

/-! ## Runs that end at an undefined operation -/

theorem overruns_eq_nil (n : Nat) (bs : List Nat) (h : bs.length ≤ n) :
    ((Region.fresh n).storeFrom 0 bs).overruns = [] := by
  rw [← List.length_eq_zero, fresh_storeFrom_overruns_length]
  omega

theorem faults_fresh_storeFrom (n : Nat) (bs : List Nat) :
    faults (overrunFaults ((Region.fresh n).storeFrom 0 bs))
      = (List.range' n (bs.length - n)).map Fault.storePastEnd := by
  rw [faults_overrunFaults, fresh_storeFrom_overruns_fst]

theorem defined_fresh_storeFrom (n : Nat) (bs : List Nat) :
    defined (overrunFaults ((Region.fresh n).storeFrom 0 bs)) = decide (bs.length ≤ n) := by
  unfold defined
  rw [faults_fresh_storeFrom]
  by_cases h : bs.length ≤ n
  · simp [h, show bs.length - n = 0 by omega]
  · have hpos : bs.length - n = (bs.length - n - 1) + 1 := by omega
    rw [hpos]
    simp [h, List.range'_succ]

theorem faults_andThen (t next : List Event) (h : faults next = []) :
    faults (andThen t next) = faults t := by
  unfold andThen
  split
  · simp [faults_append, h]
  · rfl

theorem faults_copyUserInput (input : CStr) :
    faults (copyUserInput input)
      = (List.range' 64 (strlen input + 1 - 64)).map Fault.storePastEnd := by
  unfold copyUserInput
  rw [faults_andThen, copyUserInputBuf_eq, faults_fresh_storeFrom]
  · simp [length_content]
  · rfl

theorem defined_copyUserInput (input : CStr) :
    defined (copyUserInput input) = decide (strlen input ≤ 63) := by
  unfold defined
  rw [faults_copyUserInput]
  by_cases h : strlen input ≤ 63
  · simp [h, show strlen input + 1 - 64 = 0 by omega]
  · have hpos : strlen input + 1 - 64 = (strlen input - 64) + 1 := by omega
    rw [hpos]
    simp [h, List.range'_succ]

theorem readFileToBuffer_unfold (files : CStr → Option (List Nat)) (h : Heap)
    (path : CStr) (data : List Nat) (hopen : files path = some data) :
    readFileToBuffer files h path =
      if defined ([Event.fopen path "rb" true,
          Event.alloc AllocKind.newArray Elem.char 256 h.fresh, Event.fread h.fresh 1 512] ++
          overrunFaults ((Region.fresh 256).storeFrom 0 (data.take 512))) then
        (⟨h.live, h.fresh :: h.released⟩,
          [Event.fopen path "rb" true, Event.alloc AllocKind.newArray Elem.char 256 h.fresh,
            Event.fread h.fresh 1 512] ++
          overrunFaults ((Region.fresh 256).storeFrom 0 (data.take 512)) ++
          [Event.fclose, Event.release ReleaseKind.delete h.fresh] ++
          [Event.fault (Fault.mismatchedRelease h.fresh)])
      else
        (⟨h.live ++ [⟨h.fresh, AllocKind.newArray, Elem.char,
            (Region.fresh 256).storeFrom 0 (data.take 512)⟩], h.released⟩,
          [Event.fopen path "rb" true, Event.alloc AllocKind.newArray Elem.char 256 h.fresh,
            Event.fread h.fresh 1 512] ++
          overrunFaults ((Region.fresh 256).storeFrom 0 (data.take 512))) := by
  have hf := fresh_not_live h
  unfold Heap.handles at hf
  simp only [readFileToBuffer, hopen, Heap.alloc, fread]
  rw [region_last h.live h.released ⟨h.fresh, AllocKind.newArray, Elem.char, Region.fresh 256⟩ hf,
    setRegion_last h.live h.released ⟨h.fresh, AllocKind.newArray, Elem.char, Region.fresh 256⟩ _ hf,
    release_last h.live h.released ⟨h.fresh, AllocKind.newArray, Elem.char, _⟩ _ hf]
  simp [ReleaseKind.fits]

theorem defined_read_ops (path : CStr) (a : Nat) (t : List Event) :
    defined ([Event.fopen path "rb" true, Event.alloc AllocKind.newArray Elem.char 256 a,
      Event.fread a 1 512] ++ t) = defined t := by
  simp [defined, faults]

/-- Trace of `readFileToBuffer` on a file that fits the block. -/
theorem readFileToBuffer_inside (files : CStr → Option (List Nat)) (h : Heap)
    (path : CStr) (data : List Nat) (hopen : files path = some data)
    (hlen : data.length ≤ 256) :
    (readFileToBuffer files h path).2 =
      [Event.fopen path "rb" true, Event.alloc AllocKind.newArray Elem.char 256 h.fresh,
        Event.fread h.fresh 1 512, Event.fclose, Event.release ReleaseKind.delete h.fresh,
        Event.fault (Fault.mismatchedRelease h.fresh)] := by
  have hl : (data.take 512).length ≤ 256 := by
    rw [List.length_take]
    omega
  rw [readFileToBuffer_unfold files h path data hopen, defined_read_ops,
    defined_fresh_storeFrom, decide_eq_true hl, if_pos rfl]
  simp [overrunFaults, overruns_eq_nil 256 (data.take 512) hl]

/-- Trace of `readFileToBuffer` on a file that does not fit the block. -/
theorem readFileToBuffer_overrun (files : CStr → Option (List Nat)) (h : Heap)
    (path : CStr) (data : List Nat) (hopen : files path = some data)
    (hlen : 256 < data.length) :
    (readFileToBuffer files h path).2 =
      [Event.fopen path "rb" true, Event.alloc AllocKind.newArray Elem.char 256 h.fresh,
        Event.fread h.fresh 1 512] ++
      overrunFaults ((Region.fresh 256).storeFrom 0 (data.take 512)) := by
  have hl : ¬ (data.take 512).length ≤ 256 := by
    rw [List.length_take]
    omega
  rw [readFileToBuffer_unfold files h path data hopen, defined_read_ops,
    defined_fresh_storeFrom, decide_eq_false hl]
  simp

/-! ## Which routines a run calls -/

theorem danglingPointerRun_eq (s : Stack) :
    danglingPointerRun s = ⟨s ++ [42], s.length, s⟩ := by
  simp [danglingPointerRun]

theorem danglingPointer_eq (s : Stack) : danglingPointer s = (s.length, s) := by
  simp [danglingPointer, danglingPointerRun_eq]

theorem deref_expired (s : Stack) (stale : Int) :
    deref s s.length stale = (stale, [Fault.expiredRead s.length]) := by
  simp [deref]

theorem doubleFreeRun_eq (h : Heap) :
    doubleFreeRun h =
      ⟨h.fresh,
        ⟨h.live ++ [⟨h.fresh, AllocKind.malloc, Elem.int, Region.fresh 1⟩], h.released⟩,
        ⟨h.live ++ [⟨h.fresh, AllocKind.malloc, Elem.int, ⟨[some 7], [(0, 7)]⟩⟩], h.released⟩,
        (⟨h.live, h.fresh :: h.released⟩, []),
        (⟨h.live, h.fresh :: h.released⟩, [Fault.deadRelease h.fresh])⟩ := by
  have hf := fresh_not_live h
  unfold Heap.handles at hf
  simp only [doubleFreeRun, Heap.alloc]
  rw [region_last h.live h.released ⟨h.fresh, AllocKind.malloc, Elem.int, Region.fresh 1⟩ hf,
    setRegion_last h.live h.released ⟨h.fresh, AllocKind.malloc, Elem.int, Region.fresh 1⟩ _ hf,
    release_last h.live h.released ⟨h.fresh, AllocKind.malloc, Elem.int, _⟩ _ hf,
    release_dead h.live h.released h.fresh _ hf]
  simp [ReleaseKind.fits, Region.store, Region.fresh]

theorem doubleFree_eq (h : Heap) :
    doubleFree h =
      (⟨h.live, h.fresh :: h.released⟩,
        [Event.alloc AllocKind.malloc Elem.int 1 h.fresh, Event.assign h.fresh 7,
          Event.release ReleaseKind.free h.fresh, Event.release ReleaseKind.free h.fresh,
          Event.fault (Fault.deadRelease h.fresh)]) := by
  simp [doubleFree, doubleFreeRun_eq]

theorem mem_overrunFaults (r : Region) (e : Event) (h : e ∈ overrunFaults r) :
    ∃ off, e = Event.fault (Fault.storePastEnd off) := by
  simp only [overrunFaults, List.mem_map] at h
  obtain ⟨w, -, rfl⟩ := h
  exact ⟨w.1, rfl⟩

/-! ## The two drivers in closed form -/

theorem defined_call_cons (r : Routine) (a : Option CStr) (t : List Event) :
    defined (Event.call r a :: t) = defined t := by
  simp [defined, faults]

/-- Entry point A without an argument. -/
theorem mainA_no_argument (w : World) (argv : List CStr) (h : argv.length ≤ 1) :
    EntryA.main w argv =
      ⟨none, [Event.call Routine.danglingPointer none,
        Event.fault (Fault.expiredRead w.stack.length)]⟩ := by
  simp [EntryA.main, Nat.not_lt.mpr h, defined, faults, danglingPointer_eq, deref_expired]

/-- Entry point A with an argument. -/
theorem mainA_argument (w : World) (argv : List CStr) (h : argv.length > 1) :
    EntryA.main w argv =
      if defined (copyUserInput (argv.getD 1 [])) then
        ⟨none, Event.call Routine.copyUserInput (some (argv.getD 1 [])) ::
          (copyUserInput (argv.getD 1 []) ++ [Event.call Routine.danglingPointer none,
            Event.fault (Fault.expiredRead w.stack.length)])⟩
      else
        ⟨none, Event.call Routine.copyUserInput (some (argv.getD 1 [])) ::
          copyUserInput (argv.getD 1 [])⟩ := by
  simp only [EntryA.main, if_pos h, defined_call_cons]
  split
  · simp [defined, faults, faults_append, danglingPointer_eq, deref_expired]
  · rfl

theorem faults_call_cons (r : Routine) (a : Option CStr) (t : List Event) :
    faults (Event.call r a :: t) = faults t := rfl

theorem mem_copyUserInput (input : CStr) (e : Event) (h : e ∈ copyUserInput input) :
    (∃ off, e = Event.fault (Fault.storePastEnd off)) ∨
      ∃ bs, e = Event.printf "You entered: %s\n" (PrintArg.str bs) := by
  simp only [copyUserInput, andThen] at h
  split at h
  · rcases List.mem_append.mp h with h1 | h2
    · exact Or.inl (mem_overrunFaults _ _ h1)
    · exact Or.inr ⟨_, List.mem_singleton.mp h2⟩
  · exact Or.inl (mem_overrunFaults _ _ h)

/-- C1: `copyUserInput` stores `strlen input + 1` bytes, the whole input and
its terminator at consecutive offsets from 0, into its 64-byte buffer; a store
falls outside the buffer if and only if `strlen input > 63`, and it is then
reported; when `strlen input ≤ 63` no store falls outside and the buffer holds
exactly the input followed by its terminator. -/
theorem copyUserInput_overrun_iff (input : CStr) :
    (copyUserInputBuf input).log = (content input ++ [0]).enumFrom 0 ∧
    (copyUserInputBuf input).log.length = strlen input + 1 ∧
    (copyUserInputBuf input).capacity = 64 ∧
    ((copyUserInputBuf input).overruns ≠ [] ↔ 63 < strlen input) ∧
    ((∃ off, Fault.storePastEnd off ∈ faults (copyUserInput input)) ↔ 63 < strlen input) ∧
    (strlen input ≤ 63 →
      (copyUserInputBuf input).overruns = [] ∧
      (copyUserInputBuf input).cells
        = (content input ++ [0]).map some ++ List.replicate (63 - strlen input) none ∧
      readCStr (copyUserInputBuf input).cells = content input) := by
  have hlen : (content input ++ [0]).length = strlen input + 1 := by
    simp [length_content]
  have hov := fresh_storeFrom_overruns_length 64 (content input ++ [0])
  rw [← copyUserInputBuf_eq, hlen] at hov
  have hne : (copyUserInputBuf input).overruns ≠ [] ↔ 63 < strlen input := by
    rw [← List.length_pos, hov]
    omega
  refine ⟨?_, ?_, ?_, hne, ?_, ?_⟩
  · simp [copyUserInputBuf_eq, storeFrom_log, Region.fresh]
  · simp [copyUserInputBuf_eq, storeFrom_log, Region.fresh, length_content]
  · simp [Region.capacity, copyUserInputBuf_eq, storeFrom_cells_length, Region.fresh]
  · rw [faults_copyUserInput]
    constructor
    · rintro ⟨off, hoff⟩
      simp only [List.mem_map, List.mem_range'_1] at hoff
      obtain ⟨a, ha, -⟩ := hoff
      omega
    · intro h
      exact ⟨64, by simp only [List.mem_map, List.mem_range'_1]; exact ⟨64, by omega, rfl⟩⟩
  · intro h
    have hc : (copyUserInputBuf input).cells
        = (content input ++ [0]).map some ++ List.replicate (63 - strlen input) none := by
      rw [copyUserInputBuf_eq, fresh_storeFrom_cells, hlen,
        List.take_of_length_le (by rw [hlen]; omega)]
      congr 2
      omega
    refine ⟨?_, hc, ?_⟩
    · rw [← List.length_eq_zero, hov]
      omega
    · rw [hc, readCStr_content]

/-- Witness of `copyUserInput_overrun_iff` at the two-byte input "hi". -/
theorem copyUserInput_overrun_iff_witness :
    strlen [104, 105] ≤ 63 ∧ (copyUserInputBuf [104, 105]).overruns = [] ∧
      readCStr (copyUserInputBuf [104, 105]).cells = [104, 105] :=
  ⟨by decide, ((copyUserInput_overrun_iff [104, 105]).2.2.2.2.2 (by decide)).1,
    ((copyUserInput_overrun_iff [104, 105]).2.2.2.2.2 (by decide)).2.2⟩

/-- C2: when the path does not open, `readFileToBuffer` is over after the
failed `fopen`: that call is its only event, so there is no allocation, read,
close, release or output and no report, and the heap is as it was. -/
theorem readFileToBuffer_open_fails (files : CStr → Option (List Nat)) (h : Heap)
    (path : CStr) (hopen : files path = none) :
    readFileToBuffer files h path = (h, [Event.fopen path "rb" false]) ∧
    faults (readFileToBuffer files h path).2 = [] ∧
    (readFileToBuffer files h path).2.filter Event.isOutput = [] ∧
    ∀ e ∈ (readFileToBuffer files h path).2, e = Event.fopen path "rb" false := by
  have hr : readFileToBuffer files h path = (h, [Event.fopen path "rb" false]) := by
    simp [readFileToBuffer, hopen]
  rw [hr]
  simp [faults, Event.isOutput]

/-- Witness of `readFileToBuffer_open_fails` in a world where no path
opens. -/
theorem readFileToBuffer_open_fails_witness :
    bareWorld.files [120] = none ∧
      readFileToBuffer bareWorld.files emptyHeap [120]
        = (emptyHeap, [Event.fopen [120] "rb" false]) :=
  ⟨rfl, (readFileToBuffer_open_fails bareWorld.files emptyHeap [120] rfl).1⟩

/-- C3, as stated, fails: on a file of 300 bytes that opens, the `fread`
stores past the 256-byte block, which is undefined, and the run of
`readFileToBuffer` is not bound to go on to the `fclose` and the `delete`; its
operations are not the five of the claim. -/
theorem readFileToBuffer_sequence_counterexample :
    fileWorld.files [120] = some sampleFile ∧
    ops (readFileToBuffer fileWorld.files emptyHeap [120]).2 ≠
      [Event.fopen [120] "rb" true,
        Event.alloc AllocKind.newArray Elem.char 256 emptyHeap.fresh,
        Event.fread emptyHeap.fresh 1 512, Event.fclose,
        Event.release ReleaseKind.delete emptyHeap.fresh] := by
  refine ⟨rfl, ?_⟩
  have hlen : 256 < sampleFile.length := by
    simp [sampleFile_length]
  rw [readFileToBuffer_overrun fileWorld.files emptyHeap [120] sampleFile rfl hlen,
    ops_append, ops_overrunFaults]
  intro h
  have := congrArg List.length h
  simp [ops, Event.isFault] at this

/-- C3, amended: when the path opens, `readFileToBuffer` makes one array
allocation of 256 bytes and then one `fread` request for 512 items of one byte
into it, and the count `fread` returns decides nothing.  If the file supplies
at most 256 bytes the read stays inside the block and the routine goes on to
the `fclose` and to one scalar `delete` of the array, which is reported as not
fitting the allocation.  If the file supplies more than 256 bytes the read
stores past the block, at offsets 256 and up, and the run ends there.  A store
past the block happens exactly when the file supplies more than 256 bytes; and
256 < 512. -/
theorem readFileToBuffer_open_succeeds (files : CStr → Option (List Nat)) (h : Heap)
    (path : CStr) (data : List Nat) (hopen : files path = some data) :
    (ops (readFileToBuffer files h path).2).take 3 =
      [Event.fopen path "rb" true, Event.alloc AllocKind.newArray Elem.char 256 h.fresh,
        Event.fread h.fresh 1 512] ∧
    (data.length ≤ 256 →
      (readFileToBuffer files h path).2 =
        [Event.fopen path "rb" true, Event.alloc AllocKind.newArray Elem.char 256 h.fresh,
          Event.fread h.fresh 1 512, Event.fclose, Event.release ReleaseKind.delete h.fresh,
          Event.fault (Fault.mismatchedRelease h.fresh)]) ∧
    (256 < data.length →
      ops (readFileToBuffer files h path).2 =
        [Event.fopen path "rb" true, Event.alloc AllocKind.newArray Elem.char 256 h.fresh,
          Event.fread h.fresh 1 512] ∧
      faults (readFileToBuffer files h path).2 =
        (List.range' 256 (min 512 data.length - 256)).map Fault.storePastEnd) ∧
    ((∃ off, Fault.storePastEnd off ∈ faults (readFileToBuffer files h path).2)
      ↔ 256 < data.length) ∧
    (fread (Region.fresh 256) 1 512 data).1 = min 512 data.length ∧
    ((fread (Region.fresh 256) 1 512 data).2.overruns ≠ [] ↔ 256 < data.length) ∧
    h.fresh ∉ h.handles ∧
    (Region.fresh 256).capacity < 1 * 512 := by
  have hin := readFileToBuffer_inside files h path data hopen
  have hov := readFileToBuffer_overrun files h path data hopen
  have hfa : 256 < data.length → faults (readFileToBuffer files h path).2 =
      (List.range' 256 (min 512 data.length - 256)).map Fault.storePastEnd := by
    intro hlen
    rw [hov hlen, faults_append, faults_fresh_storeFrom, List.length_take]
    simp [faults]
  refine ⟨?_, hin, ?_, ?_, ?_, ?_, fresh_not_live h, ?_⟩
  · by_cases hlen : data.length ≤ 256
    · rw [hin hlen]
      rfl
    · rw [hov (by omega), ops_append, ops_overrunFaults]
      rfl
  · intro hlen
    refine ⟨?_, hfa hlen⟩
    rw [hov hlen, ops_append, ops_overrunFaults]
    rfl
  · constructor
    · rintro ⟨off, hoff⟩
      by_contra hlen
      rw [hin (by omega)] at hoff
      simp [faults] at hoff
    · intro hlen
      rw [hfa hlen]
      refine ⟨256, ?_⟩
      simp only [List.mem_map, List.mem_range'_1]
      exact ⟨256, by omega, rfl⟩
  · simp [fread]
  · have := fresh_storeFrom_overruns_length 256 (data.take 512)
    simp only [fread, Nat.one_mul]
    rw [← List.length_pos, this, List.length_take]
    omega
  · show (List.replicate 256 (none : Option Nat)).length < 1 * 512
    rw [List.length_replicate]
    omega

/-- Witness of `readFileToBuffer_open_succeeds`: a file of 3 bytes, which
fits the block, and a file of 300 bytes, which does not. -/
theorem readFileToBuffer_open_succeeds_witness :
    (shortWorld.files [120] = some shortFile ∧ shortFile.length ≤ 256 ∧
      (readFileToBuffer shortWorld.files emptyHeap [120]).2 =
        [Event.fopen [120] "rb" true,
          Event.alloc AllocKind.newArray Elem.char 256 emptyHeap.fresh,
          Event.fread emptyHeap.fresh 1 512, Event.fclose,
          Event.release ReleaseKind.delete emptyHeap.fresh,
          Event.fault (Fault.mismatchedRelease emptyHeap.fresh)]) ∧
    (fileWorld.files [120] = some sampleFile ∧ 256 < sampleFile.length ∧
      ops (readFileToBuffer fileWorld.files emptyHeap [120]).2 =
        [Event.fopen [120] "rb" true,
          Event.alloc AllocKind.newArray Elem.char 256 emptyHeap.fresh,
          Event.fread emptyHeap.fresh 1 512]) :=
  ⟨⟨rfl, by decide,
      (readFileToBuffer_open_succeeds shortWorld.files emptyHeap [120] shortFile rfl).2.1
        (by decide)⟩,
    ⟨rfl, by simp [sampleFile_length],
      ((readFileToBuffer_open_succeeds fileWorld.files emptyHeap [120] sampleFile rfl).2.2.1
          (by simp [sampleFile_length])).1⟩⟩

/-- C4: with `x` the value found in the unwritten integer, `uninitExample`
returns `x` when `x > 0` and -1 otherwise; so the result is `x` or -1, is
never 0, and is never a negative number other than -1.  The branch on the
unwritten integer is reported whatever `x` is. -/
theorem uninitExample_result (x : Int) :
    (0 < x → (uninitExample x).1 = x) ∧
    (x ≤ 0 → (uninitExample x).1 = -1) ∧
    ((uninitExample x).1 = x ∨ (uninitExample x).1 = -1) ∧
    (uninitExample x).1 ≠ 0 ∧
    ((uninitExample x).1 < 0 → (uninitExample x).1 = -1) ∧
    faults (uninitExample x).2 = [Fault.indeterminateBranch] := by
  simp only [uninitExample, faults]
  refine ⟨?_, ?_, ?_, ?_, ?_, trivial⟩
  · intro h
    simp [h]
  · intro h
    simp [Int.not_lt.mpr h]
  · by_cases h : x > 0 <;> simp [h]
  · by_cases h : x > 0 <;> simp [h]
    omega
  · by_cases h : x > 0 <;> simp [h]
    omega

/-- Witness of `uninitExample_result` at the values 5 and -3. -/
theorem uninitExample_result_witness :
    ((0 : Int) < 5 ∧ (uninitExample 5).1 = 5) ∧ ((-3 : Int) ≤ 0 ∧ (uninitExample (-3)).1 = -1) :=
  ⟨⟨by decide, (uninitExample_result 5).1 (by decide)⟩,
    ⟨by decide, (uninitExample_result (-3)).2.1 (by decide)⟩⟩

/-- C8: `doubleFree` allocates one integer with `malloc`, stores 7 in it,
frees it and frees the same handle again, in that order.  In every allocator
state (the allocator grants every request, so the allocation always succeeds)
the handle is new, the block holds 7 after the store, the first `free` takes
the block out of the live set without a report, and the second `free` finds
the handle not live, already released, and is reported as such. -/
theorem doubleFree_releases_dead_handle (h : Heap) :
    (doubleFree h).2 =
      [Event.alloc AllocKind.malloc Elem.int 1 (doubleFreeRun h).p,
        Event.assign (doubleFreeRun h).p 7,
        Event.release ReleaseKind.free (doubleFreeRun h).p,
        Event.release ReleaseKind.free (doubleFreeRun h).p,
        Event.fault (Fault.deadRelease (doubleFreeRun h).p)] ∧
    (doubleFreeRun h).p ∉ h.handles ∧
    (doubleFreeRun h).afterMalloc.find (doubleFreeRun h).p
      = some ⟨(doubleFreeRun h).p, AllocKind.malloc, Elem.int, Region.fresh 1⟩ ∧
    (doubleFreeRun h).afterStore.find (doubleFreeRun h).p
      = some ⟨(doubleFreeRun h).p, AllocKind.malloc, Elem.int, ⟨[some 7], [(0, 7)]⟩⟩ ∧
    (doubleFreeRun h).afterFree1.2 = [] ∧
    (doubleFreeRun h).afterFree1.1.find (doubleFreeRun h).p = none ∧
    (doubleFreeRun h).p ∈ (doubleFreeRun h).afterFree1.1.released ∧
    (doubleFreeRun h).afterFree1.1.live = h.live ∧
    (doubleFreeRun h).afterFree2
      = ((doubleFreeRun h).afterFree1.1, [Fault.deadRelease (doubleFreeRun h).p]) ∧
    (doubleFree h).1 = (doubleFreeRun h).afterFree2.1 := by
  have hf := fresh_not_live h
  have hf2 := hf
  unfold Heap.handles at hf2
  rw [doubleFree_eq, doubleFreeRun_eq]
  refine ⟨rfl, hf, ?_, ?_, rfl, ?_, ?_, rfl, rfl, rfl⟩
  · exact find_last h.live h.released ⟨h.fresh, AllocKind.malloc, Elem.int, Region.fresh 1⟩ hf2
  · exact find_last h.live h.released
      ⟨h.fresh, AllocKind.malloc, Elem.int, ⟨[some 7], [(0, 7)]⟩⟩ hf2
  · exact find_none_of_not_live h.live (h.fresh :: h.released) h.fresh hf2
  · simp

/-- C9: `leakMemory` allocates one array of 100 integers and releases
nothing: in every allocator state the live blocks after the call are those
before it followed by one block of 100 unwritten integers at a handle that was
neither live nor released before, the released handles are unchanged, the
allocation is the only event, and the routine hands back nothing but the heap,
in which the block is live. -/
theorem leakMemory_block_stays_live (h : Heap) :
    (leakMemory h).1.live
      = h.live ++ [⟨h.fresh, AllocKind.newArray, Elem.int, Region.fresh 100⟩] ∧
    (Region.fresh 100).cells = List.replicate 100 none ∧
    (Region.fresh 100).capacity = 100 ∧
    h.fresh ∉ h.handles ∧
    h.fresh ∉ h.released ∧
    (leakMemory h).1.released = h.released ∧
    (leakMemory h).2 = [Event.alloc AllocKind.newArray Elem.int 100 h.fresh] ∧
    (leakMemory h).1.find h.fresh
      = some ⟨h.fresh, AllocKind.newArray, Elem.int, Region.fresh 100⟩ := by
  have hf := fresh_not_live h
  refine ⟨rfl, rfl, ?_, hf, fresh_not_released h, rfl, rfl, ?_⟩
  · show (List.replicate 100 (none : Option Nat)).length = 100
    rw [List.length_replicate]
  · unfold Heap.handles at hf
    exact find_last h.live h.released
      ⟨h.fresh, AllocKind.newArray, Elem.int, Region.fresh 100⟩ hf

/-- C10: `danglingPointer` returns the address of its own local: while the
routine runs that slot is live and holds 42, it is not a slot of the caller,
and once the routine has returned the stack is the caller's again and the
address is no live slot.  A read through it is a reported read of expired
storage that yields whatever the environment left there, for every such value,
so not 42 in general.  Every run of the driver that gets to its read through
the address (no argument, or one of at most 63 bytes) ends in that read: no
exit status and no printed value, 42 or other, is assured. -/
theorem danglingPointer_address_expired (s : Stack) (w : World) (argv : List CStr)
    (stale : Int) :
    (danglingPointerRun s).inside.get? (danglingPointerRun s).addr = some 42 ∧
    s.get? (danglingPointerRun s).addr = none ∧
    (danglingPointerRun s).after = s ∧
    (danglingPointer s).1 = (danglingPointerRun s).addr ∧
    (danglingPointer s).2.get? (danglingPointer s).1 = none ∧
    deref (danglingPointer s).2 (danglingPointer s).1 stale
      = (stale, [Fault.expiredRead (danglingPointer s).1]) ∧
    (Fault.expiredRead (danglingPointer w.stack).1 ∈ faults (EntryA.main w argv).trace
      ↔ (argv.length ≤ 1 ∨ strlen (argv.getD 1 []) ≤ 63)) ∧
    (EntryA.main w argv).status = none ∧
    ∀ v : Int,
      Event.printf "Dangling value: %d\n" (PrintArg.int v) ∉ (EntryA.main w argv).trace := by
  refine ⟨?_, ?_, ?_, ?_, ?_, ?_, ?_, ?_, ?_⟩
  · simp [danglingPointerRun_eq]
  · simp [danglingPointerRun_eq]
  · simp [danglingPointerRun_eq]
  · simp [danglingPointer]
  · simp [danglingPointer_eq]
  · rw [danglingPointer_eq]
    exact deref_expired s stale
  · rw [danglingPointer_eq]
    by_cases h : argv.length > 1
    · rw [mainA_argument w argv h, defined_copyUserInput]
      by_cases hs : strlen (argv.getD 1 []) ≤ 63
      · have h0 : strlen (argv.getD 1 []) + 1 - 64 = 0 := by omega
        rw [decide_eq_true hs, if_pos rfl]
        simp only [faults_call_cons, faults_append, faults_copyUserInput, h0]
        constructor
        · intro _
          exact Or.inr hs
        · intro _
          simp [faults]
      · rw [decide_eq_false hs, if_neg (by simp)]
        simp only [faults_call_cons, faults_copyUserInput]
        constructor
        · intro hm
          simp at hm
        · intro hh
          omega
    · rw [mainA_no_argument w argv (by omega)]
      simp [faults]
      omega
  · by_cases h : argv.length > 1
    · rw [mainA_argument w argv h]
      split <;> rfl
    · rw [mainA_no_argument w argv (by omega)]
  · intro v hm
    have hcu : Event.printf "Dangling value: %d\n" (PrintArg.int v)
        ∉ copyUserInput (argv.getD 1 []) := by
      intro hin
      rcases mem_copyUserInput _ _ hin with ⟨off, hoff⟩ | ⟨bs, hbs⟩
      · cases hoff
      · injection hbs with _ harg
        cases harg
    by_cases h : argv.length > 1
    · rw [mainA_argument w argv h] at hm
      split at hm
      · rcases List.mem_cons.mp hm with h1 | h1
        · cases h1
        · rcases List.mem_append.mp h1 with h2 | h2
          · exact hcu h2
          · simp at h2
      · rcases List.mem_cons.mp hm with h1 | h1
        · cases h1
        · exact hcu h1
    · rw [mainA_no_argument w argv (by omega)] at hm
      simp at hm

end Goat
